import Mathlib

/-!
Verification development for the Unicycler repository (fork pjeraldo/Unicycler).

The only source file present is `setup.py`; its commands (`install`, `clean`,
`toolcheck`) are embedded below as pure functions over an explicit environment,
with filesystem and process effects recorded as an action trace.  The assembly
core described by the specification (Aligner, Bridge Builder, Graph Simplifier)
is not present in the sources, so those components are modelled from the
specification text; each such definition carries a doc comment starting with
`Modelled from the spec:`.
-/

namespace Unicycler

/-- Environment seen by `UnicyclerInstall.run` in `setup.py`: the two install
directories with their `os.path.isdir` / `os.access(..., W_OK)` results, the
`os.path.exists` result for the gene-data destination directory, `shutil.which`,
and the results of the external helpers `get_pilon_jar_path` and
`get_ascii_art` imported from `unicycler.misc` (not under the sources). -/
structure InstallEnv where
  installLib : String
  installScripts : String
  libIsDir : Bool
  libWritable : Bool
  scriptsIsDir : Bool
  scriptsWritable : Bool
  geneDataDestExists : Bool
  which : String → Option String
  pilonJarPath : Option String
  asciiArt : String

/-- Embedding of `missing_tool` (setup.py lines 54-61): look the tool up on the
PATH; for `pilon` fall back to the pilon jar path; return `[tool_name]` when
still not found and `[]` otherwise. -/
def missingTool (env : InstallEnv) (toolName : String) : List String :=
  let path0 := env.which toolName
  let path1 := if path0.isNone && (toolName == "pilon") then env.pilonJarPath else path0
  if path1.isNone then [toolName] else []

/-- The fixed list of eight required tools from `tool_check` (setup.py lines 66-67). -/
def requiredTools : List String :=
  ["spades.py", "java", "pilon", "samtools", "bowtie2", "bowtie2-build",
   "makeblastdb", "tblastn"]

/-- Embedding of the accumulation loop of `tool_check` (setup.py lines 68-70):
`missing_tools = []` followed by `missing_tools += missing_tool(tool)` over the
fixed tool list. -/
def toolCheckMissing (env : InstallEnv) : List String :=
  requiredTools.foldl (fun acc t => acc ++ missingTool env t) []

/-- The message printed by `tool_check`: a warning naming the missing tools, or
the all-found success message. -/
inductive ToolMsg where
  | warning (missing : List String)
  | allFound
deriving DecidableEq

/-- Embedding of the output branch of `tool_check` (setup.py lines 71-77):
warn with the collected missing-tool list when it is nonempty, otherwise print
the success message.  The function is total: it never raises. -/
def toolCheck (env : InstallEnv) : ToolMsg :=
  if (toolCheckMissing env).isEmpty then ToolMsg.allFound
  else ToolMsg.warning (toolCheckMissing env)

/-- A tool counts as available when `shutil.which` finds it, or, for `pilon`
only, when the pilon jar path is found.  (Specification of `missing_tool`,
used to state theorems; the executable translation is `missingTool`.) -/
def toolAvailable (env : InstallEnv) (toolName : String) : Bool :=
  (env.which toolName).isSome || ((toolName == "pilon") && env.pilonJarPath.isSome)

/-- One recorded effect of `UnicyclerInstall.run`: a directory creation, a file
copy, a printed message, the tool-check report, or a compilation of the C++
extension (the action vocabulary includes the build step so that its absence
from every trace can be stated). -/
inductive Action where
  | makeDirs (path : String)
  | copyFile (src dst : String)
  | message (text : String)
  | toolMsg (m : ToolMsg)
  | buildCompile (cmd : List String)
deriving DecidableEq

/-- `os.path.join(self.install_lib, 'unicycler', 'gene_data')` from setup.py line 127. -/
def geneDataDest (env : InstallEnv) : String :=
  env.installLib ++ "/unicycler/gene_data"

/-- The sequence of effects of the body of `UnicyclerInstall.run` after the
permission checks (setup.py lines 126-148): create the gene-data destination
directory when absent, copy the two reference fasta files, print the success
banner, and finally run `tool_check`. -/
def installTrace (env : InstallEnv) : List Action :=
  (if !env.geneDataDestExists then [Action.makeDirs (geneDataDest env)] else [])
    ++ [Action.copyFile "unicycler/gene_data/start_genes.fasta"
          (geneDataDest env ++ "/start_genes.fasta"),
        Action.copyFile "unicycler/gene_data/lambda_phage.fasta"
          (geneDataDest env ++ "/lambda_phage.fasta"),
        Action.message env.asciiArt,
        Action.message "Unicycler is installed!",
        Action.message "",
        Action.message "Example commands:",
        Action.message "  unicycler --help",
        Action.message "  unicycler --help_all",
        Action.message "  unicycler -1 short_reads_1.fastq.gz -2 short_reads_2.fastq.gz -o path/to/output_dir",
        Action.message "  unicycler -1 short_reads_1.fastq.gz -2 short_reads_2.fastq.gz -l long_reads.fastq.gz -o path/to/output_dir",
        Action.message "",
        Action.toolMsg (toolCheck env)]

/-- Embedding of `UnicyclerInstall.run` (setup.py lines 93-148).  The two write
permission checks come first and call `sys.exit` (the `.error` result, carrying
the message and no actions).  The build / compiled-extension steps of the
original upstream script (lines 102-125) are commented out in this source and
therefore produce no actions here.  The remaining body performs `installTrace`. -/
def installRun (env : InstallEnv) : Except String (List Action) :=
  if env.libIsDir && !env.libWritable then
    Except.error ("Error: no write permission for " ++ env.installLib ++
      "  Perhaps you need to use sudo?")
  else if env.scriptsIsDir && !env.scriptsWritable then
    Except.error ("Error: no write permission for " ++ env.installScripts ++
      "  Perhaps you need to use sudo?")
  else
    Except.ok (installTrace env)

/-- A concrete, fully permissive install environment with no tools on the PATH,
used to evaluate `installRun` at a specific input. -/
def sampleInstallEnv : InstallEnv where
  installLib := "/lib"
  installScripts := "/bin"
  libIsDir := true
  libWritable := true
  scriptsIsDir := true
  scriptsWritable := true
  geneDataDestExists := false
  which := fun _ => none
  pilonJarPath := none
  asciiArt := "ASCII ART"

/-- A concrete environment whose install-library directory is not writable. -/
def lockedInstallEnv : InstallEnv :=
  { sampleInstallEnv with libWritable := false }

/-- One filesystem entry under the package root, as seen by `os.walk`: its path
(a list of components relative to the root) and whether it is a directory. -/
structure FSEntry where
  path : List String
  isDir : Bool
deriving DecidableEq

/-- A filesystem under the package root: the finite list of its entries. -/
abbrev FS := List FSEntry

/-- Final path component, the name `fnmatch.filter` is applied to. -/
def baseName (p : List String) : String := p.getLast?.getD ""

/-- `fnmatch` suffix test, spelled on the character list of the name. -/
def strSuffix (t s : String) : Bool := t.data.isSuffixOf s.data

/-- `fnmatch` prefix test, spelled on the character list of the name. -/
def strStartsWith (t s : String) : Bool := t.data.isPrefixOf s.data

/-- The directory-name patterns of `UnicyclerClean.run` (setup.py lines 170-175):
`*.egg-info`, `build`, `__pycache__`. -/
def dirNameMatch (s : String) : Bool :=
  strSuffix ".egg-info" s || s == "build" || s == "__pycache__"

/-- The file-name patterns of `UnicyclerClean.run` (setup.py lines 182-187):
`setuptools*.zip`, `*.o`, `*.pyc`.  For `setuptools*.zip` the length bound
makes the boolean test coincide with `fnmatch`: the prefix and the suffix must
not overlap, since `*` matches a possibly empty character span between them. -/
def fileNameMatch (s : String) : Bool :=
  (strStartsWith "setuptools" s && strSuffix ".zip" s && decide (14 ≤ s.data.length))
    || strSuffix ".o" s || strSuffix ".pyc" s

/-- The directories collected by the first `os.walk` pass of
`UnicyclerClean.run`: every directory entry whose name matches a directory
pattern. -/
def matchedDirs (fs : FS) : List (List String) :=
  (fs.filter (fun e => e.isDir && dirNameMatch (baseName e.path))).map (fun e => e.path)

/-- `shutil.rmtree`: remove the directory and everything below it; raise
(`.error`) when the path no longer exists. -/
def rmtree (p : List String) (fs : FS) : Except String FS :=
  if fs.any (fun e => e.path == p) then
    Except.ok (fs.filter (fun e => !(p.isPrefixOf e.path)))
  else
    Except.error "FileNotFoundError"

/-- The deletion loop over the collected directories (setup.py lines 176-178). -/
def rmtreeAll (ps : List (List String)) (fs : FS) : Except String FS :=
  match ps with
  | [] => Except.ok fs
  | p :: rest =>
    match rmtree p fs with
    | Except.error e => Except.error e
    | Except.ok fs1 => rmtreeAll rest fs1

/-- Embedding of `UnicyclerClean.run` (setup.py lines 165-190): assert that the
current directory is still the one recorded in `finalize_options` (the package
root); collect and delete the matching directories; then collect the matching
files from what remains and delete them.  Directories are processed in the
collection order of the walk; the theorems below assume no matched directory is
nested inside another, in which case every order gives the same result. -/
def cleanRun (recordedCwd currentCwd : List String) (fs : FS) : Except String FS :=
  if currentCwd ≠ recordedCwd then
    Except.error ("Must be in package root: " ++ String.intercalate "/" recordedCwd)
  else
    match rmtreeAll (matchedDirs fs) fs with
    | Except.error e => Except.error e
    | Except.ok fs1 =>
      Except.ok (fs1.filter (fun e => e.isDir || !fileNameMatch (baseName e.path)))

/-- A concrete package-root filesystem used to evaluate `cleanRun`. -/
def sampleFS : FS :=
  [⟨["unicycler"], true⟩,
   ⟨["unicycler", "cpp_functions.so"], false⟩,
   ⟨["unicycler", "unicycler.py"], false⟩,
   ⟨["build"], true⟩,
   ⟨["build", "seqan.o"], false⟩,
   ⟨["unicycler.egg-info"], true⟩,
   ⟨["stray.pyc"], false⟩,
   ⟨["README.md"], false⟩]

/-- Modelled from the spec: the Graph Simplifier's assembly graph (§3, §4.3),
absent from the sources.  Nodes are identified by natural numbers, edges are
directed pairs of node identifiers, and `nextId` is the arena counter from
which the identifier of the next merged node is drawn (§9: stable indices). -/
structure SGraph where
  nodes : List Nat
  edges : List (Nat × Nat)
  nextId : Nat
deriving DecidableEq

/-- Modelled from the spec: a bridge as the Simplifier consumes it (§3, §4.3),
absent from the sources — the path of nodes it traverses, from its start
endpoint to its end endpoint. -/
structure Bridge where
  path : List Nat
deriving DecidableEq

/-- Modelled from the spec: the Simplifier's re-validation check (§4.3) — the
bridge is applied only when both its endpoint nodes are still unmerged (still
present in the graph, as is the rest of its path) and the path it names is
still a valid walk along existing edges; otherwise it is discarded as stale. -/
def bridgeUsable (g : SGraph) (b : Bridge) : Bool :=
  !b.path.isEmpty
    && b.path.all (fun x => g.nodes.contains x)
    && (b.path.zip b.path.tail).all (fun pr => g.edges.contains pr)

/-- Modelled from the spec: edge rerouting during a merge (§3 invariants) —
edges internal to the merged path are dropped, edges incident to a removed
node from outside are rerouted to the merged node `m`, and all other edges
are kept. -/
def reroute (p : List Nat) (m : Nat) (e : Nat × Nat) : Option (Nat × Nat) :=
  if p.contains e.1 then
    (if p.contains e.2 then none else some (m, e.2))
  else
    (if p.contains e.2 then some (e.1, m) else some e)

/-- Modelled from the spec: the merge operation of the Simplifier (§4.3) —
replace the traversed nodes with one merged node (a fresh identifier from the
arena counter) and reroute the incident edges. -/
def mergePath (g : SGraph) (p : List Nat) : SGraph where
  nodes := g.nodes.filter (fun x => !p.contains x) ++ [g.nextId]
  edges := g.edges.filterMap (reroute p g.nextId)
  nextId := g.nextId + 1

/-- Modelled from the spec: one step of the Simplifier's state machine (§4.3) —
apply the bridge when it is still usable, otherwise discard it as stale
(`StaleBridge`, §7) and leave the graph unchanged. -/
def applyBridge (g : SGraph) (b : Bridge) : SGraph :=
  if bridgeUsable g b then mergePath g b.path else g

/-- Modelled from the spec: a whole run of the Simplifier over its ranked
bridge queue (§4.3), applying (or discarding) each bridge in turn. -/
def applyBridges (g : SGraph) (bs : List Bridge) : SGraph :=
  bs.foldl applyBridge g

/-- No dangling edge endpoint: both endpoints of every edge are nodes of the
graph (§3 invariants). -/
def noDangling (g : SGraph) : Prop :=
  ∀ e ∈ g.edges, e.1 ∈ g.nodes ∧ e.2 ∈ g.nodes

/-- Arena well-formedness: every node identifier is below the arena counter,
so a freshly minted merged-node identifier is distinct from all live nodes. -/
def wfGraph (g : SGraph) : Prop :=
  ∀ x ∈ g.nodes, x < g.nextId

/-- A concrete graph for evaluating the Simplifier model: a three-node path
with its arena counter ahead of every node. -/
def sampleGraph : SGraph where
  nodes := [1, 2, 3]
  edges := [(1, 2), (2, 3)]
  nextId := 4

/-- A concrete bridge whose path walks the whole of `sampleGraph`. -/
def sampleBridge : Bridge := ⟨[1, 2, 3]⟩

/-- Modelled from the spec: the quantities entering the bridge tie-break chain
(§4.2), absent from the sources — the count of supporting reads, the mean
alignment identity of the support, and the length of the connecting path. -/
structure RankedBridge where
  support : Nat
  meanIdentity : ℚ
  pathLen : Nat
deriving DecidableEq

/-- Modelled from the spec: the bridge ranking (§4.2, §8) — prefer more
supporting reads, then higher mean identity, then shorter path. -/
def outranks (b1 b2 : RankedBridge) : Prop :=
  b2.support < b1.support
    ∨ (b1.support = b2.support
        ∧ (b2.meanIdentity < b1.meanIdentity
            ∨ (b1.meanIdentity = b2.meanIdentity ∧ b1.pathLen < b2.pathLen)))

/-- Modelled from the spec: the nucleotide alphabet of the Sequence Store (§3)
— four letters plus the ambiguity symbol. -/
inductive Base where
  | A | C | G | T | N
deriving DecidableEq

/-- Modelled from the spec: nucleotide complement, pairing each strand letter
with its reverse-complement partner; the ambiguity symbol is self-paired. -/
def comp : Base → Base
  | Base.A => Base.T
  | Base.T => Base.A
  | Base.C => Base.G
  | Base.G => Base.C
  | Base.N => Base.N

/-- Modelled from the spec: the reverse-complement of a sequence (§3). -/
def revComp (s : List Base) : List Base := (s.map comp).reverse

/-- One column of an alignment transcript: a substitution column consuming a
read base and a node base, a read-only column (gap in the node), or a
node-only column (gap in the read). -/
inductive Step where
  | sub (x y : Base)
  | delR (x : Base)
  | delN (y : Base)
deriving DecidableEq

/-- The column kind of a transcript step. -/
inductive Kind where
  | subK | gapRK | gapNK
deriving DecidableEq

/-- Kind of a step. -/
def Step.kind : Step → Kind
  | Step.sub _ _ => Kind.subK
  | Step.delR _ => Kind.gapRK
  | Step.delN _ => Kind.gapNK

/-- Whether a column kind is a gap column. -/
def Kind.isGap : Kind → Bool
  | Kind.subK => false
  | Kind.gapRK => true
  | Kind.gapNK => true

/-- Complement every base of a step. -/
def cStep : Step → Step
  | Step.sub x y => Step.sub (comp x) (comp y)
  | Step.delR x => Step.delR (comp x)
  | Step.delN y => Step.delN (comp y)

/-- The transcript of the reverse-complemented alignment: reverse the columns
and complement every base. -/
def revSteps (t : List Step) : List Step := (t.map cStep).reverse

/-- The read sequence a transcript consumes. -/
def readOf (t : List Step) : List Base :=
  t.filterMap (fun s => match s with
    | Step.sub x _ => some x
    | Step.delR x => some x
    | Step.delN _ => none)

/-- The node sequence a transcript consumes. -/
def nodeOf (t : List Step) : List Base :=
  t.filterMap (fun s => match s with
    | Step.sub _ y => some y
    | Step.delR _ => none
    | Step.delN y => some y)

/-- Modelled from the spec: the fixed substitution constants of the scoring
scheme (§4.1) — a match reward and a mismatch penalty. -/
def subScoreB (x y : Base) : ℤ := if x = y then 3 else -6

/-- Modelled from the spec: the fixed gap-open penalty of the affine scheme (§4.1). -/
def gapOpenPen : ℤ := 5

/-- Modelled from the spec: the fixed gap-extend penalty of the affine scheme (§4.1). -/
def gapExtendPen : ℤ := 2

/-- Sum of the substitution scores of a transcript. -/
def subSum (t : List Step) : ℤ :=
  (t.filterMap (fun s => match s with
    | Step.sub x y => some (subScoreB x y)
    | Step.delR _ => none
    | Step.delN _ => none)).sum

/-- Number of gap columns of a transcript. -/
def gapCount (t : List Step) : ℕ :=
  t.countP (fun s => s.kind.isGap)

/-- Whether a gap column at a run boundary is charged: 1 when the column is a
gap and the neighbouring column (`o`, as a kind, `none` at the transcript
edge) has a different kind. -/
def gapBoundary (s : Step) (o : Option Kind) : ℕ :=
  if s.kind.isGap = true ∧ o ≠ some s.kind then 1 else 0

/-- Number of maximal gap runs, scanning left to right; `prev` is the kind of
the previous column, so a gap column starts a run exactly when the previous
column has a different kind. -/
def runStarts (prev : Option Kind) : List Step → ℕ
  | [] => 0
  | s :: rest => gapBoundary s prev + runStarts (some s.kind) rest

/-- Number of maximal gap runs of a transcript. -/
def runCount (t : List Step) : ℕ := runStarts none t

/-- Number of maximal gap runs, counted at the column that ends each run. -/
def runEnds : List Step → ℕ
  | [] => 0
  | s :: rest => gapBoundary s (rest.head?.map Step.kind) + runEnds rest

/-- Length of the leading run of columns of kind `k`. -/
def runLenFrom (k : Kind) : List Step → ℕ
  | [] => 0
  | s :: rest => if s.kind = k then 1 + runLenFrom k rest else 0

/-- Length of the leading run of the transcript. -/
def leadRunLen (t : List Step) : ℕ :=
  match t with
  | [] => 0
  | s :: _ => runLenFrom s.kind t

/-- The affine penalty charged for the leading run when it is a gap run; free
end-gaps (§4.1) refund exactly this amount at each outer edge. -/
def frontRefund (t : List Step) : ℤ :=
  match t with
  | [] => 0
  | s :: _ => if s.kind.isGap then gapOpenPen + gapExtendPen * (leadRunLen t : ℤ) else 0

/-- Whether the whole transcript is one single gap run (in which case the two
outer edges coincide and the free-end refund applies only once). -/
def singleGapRun (t : List Step) : Bool :=
  match t with
  | [] => false
  | s :: _ => s.kind.isGap && t.all (fun u => u.kind = s.kind)

/-- Modelled from the spec: the semi-global score of one alignment transcript
(§4.1) — substitution columns are scored by `subScoreB`; each maximal gap run
costs the affine penalty `gapOpenPen + gapExtendPen * length`; the leading and
the trailing gap run are free (free end-gaps on the outer edges), each refunded
once. -/
def scoreT (t : List Step) : ℤ :=
  subSum t
    - (gapExtendPen * (gapCount t : ℤ) + gapOpenPen * (runCount t : ℤ))
    + frontRefund t
    + (if singleGapRun t then 0 else frontRefund t.reverse)

/-- All alignment transcripts between a read and a node sequence. -/
def enumT : List Base → List Base → List (List Step)
  | [], [] => [[]]
  | [], y :: n => (enumT [] n).map (fun t => Step.delN y :: t)
  | x :: r, [] => (enumT r []).map (fun t => Step.delR x :: t)
  | x :: r, y :: n =>
    ((enumT r n).map (fun t => Step.sub x y :: t))
      ++ ((enumT r (y :: n)).map (fun t => Step.delR x :: t))
      ++ ((enumT (x :: r) n).map (fun t => Step.delN y :: t))
termination_by r n => r.length + n.length

/-- Modelled from the spec: the score the Aligner reports for a (read, node)
pair (§4.1) — the best semi-global alignment score over all transcripts.  The
fold starts from 0, the score of the empty-overlap alignment, which is always
attained (gap the whole read, then the whole node; both runs are free end
gaps), so the fold computes the true maximum. -/
def semiGlobalScore (r n : List Base) : ℤ :=
  ((enumT r n).map scoreT).foldl max 0

theorem matchedDirs_exists (fs : FS) : ∀ p ∈ matchedDirs fs, ∃ e ∈ fs, e.path = p := by
  intro p hp
  unfold matchedDirs at hp
  rcases List.mem_map.mp hp with ⟨e, he, rfl⟩
  exact ⟨e, (List.mem_filter.mp he).1, rfl⟩

theorem rmtreeAll_ok (ps : List (List String)) (fs : FS)
    (hex : ∀ p ∈ ps, ∃ e ∈ fs, e.path = p)
    (hpair : List.Pairwise (fun p q => p.isPrefixOf q = false ∧ q.isPrefixOf p = false) ps) :
    rmtreeAll ps fs
      = Except.ok (fs.filter (fun e => !(ps.any (fun p => p.isPrefixOf e.path)))) := by
  induction ps generalizing fs with
  | nil => simp [rmtreeAll]
  | cons p rest ih =>
    rcases hex p (List.mem_cons_self p rest) with ⟨e, he, hep⟩
    have hany : fs.any (fun x => x.path == p) = true :=
      List.any_eq_true.mpr ⟨e, he, by simp [hep]⟩
    rw [List.pairwise_cons] at hpair
    have hex2 : ∀ q ∈ rest, ∃ x ∈ fs.filter (fun x => !(p.isPrefixOf x.path)), x.path = q := by
      intro q hq
      rcases hex q (List.mem_cons_of_mem p hq) with ⟨x, hx, hxq⟩
      refine ⟨x, List.mem_filter.mpr ⟨hx, ?_⟩, hxq⟩
      rw [hxq]
      simp [(hpair.1 q hq).1]
    have hstep := ih (fs.filter (fun x => !(p.isPrefixOf x.path))) hex2 hpair.2
    unfold rmtreeAll rmtree
    rw [if_pos hany]
    show rmtreeAll rest (fs.filter (fun x => !(p.isPrefixOf x.path))) = _
    rw [hstep, List.filter_filter]
    refine congrArg Except.ok (List.filter_congr ?_)
    intro x _
    cases hpre : p.isPrefixOf x.path <;> simp [hpre]

theorem missingTool_eq (env : InstallEnv) (t : String) :
    missingTool env t = if toolAvailable env t then [] else [t] := by
  unfold missingTool toolAvailable
  cases hw : env.which t <;> cases hp : env.pilonJarPath <;>
    cases hb : (t == "pilon") <;> simp [hw, hp, hb]

theorem toolCheckMissing_foldl (env : InstallEnv) (l : List String) (acc : List String) :
    l.foldl (fun a t => a ++ missingTool env t) acc
      = acc ++ l.filter (fun t => !toolAvailable env t) := by
  induction l generalizing acc with
  | nil => simp
  | cons t l ih =>
    rw [List.foldl_cons, ih, missingTool_eq]
    cases h : toolAvailable env t <;> simp [h]

theorem toolCheckMissing_eq (env : InstallEnv) :
    toolCheckMissing env = requiredTools.filter (fun t => !toolAvailable env t) := by
  unfold toolCheckMissing
  rw [toolCheckMissing_foldl]
  simp

/-- Claim C8: for every environment the tool check is a total function that
reports rather than aborts: `missing_tool` returns `[tool_name]` exactly when
the tool is unavailable (with `pilon` also accepted via its jar path) and `[]`
otherwise, and `tool_check` produces a warning naming exactly the unavailable
tools among the fixed list of eight, or the success message when none are
missing; in both cases a message is returned and installation proceeds. -/
theorem toolCheckReportsExactlyMissing (env : InstallEnv) :
    (∀ t, missingTool env t = if toolAvailable env t then [] else [t])
      ∧ toolCheckMissing env = requiredTools.filter (fun t => !toolAvailable env t)
      ∧ toolCheck env =
          (if (requiredTools.filter (fun t => !toolAvailable env t)).isEmpty
           then ToolMsg.allFound
           else ToolMsg.warning (requiredTools.filter (fun t => !toolAvailable env t))) := by
  refine ⟨fun t => missingTool_eq env t, toolCheckMissing_eq env, ?_⟩
  unfold toolCheck
  rw [toolCheckMissing_eq]

/- Claim theorems for the install command. -/

/-- Claim C9: when the install-library directory or the install-scripts
directory exists but is not writable, `UnicyclerInstall.run` exits with the
corresponding error message; the result carries no actions, so no file was
created or copied and the filesystem is unchanged on this path. -/
theorem installPermissionErrorBeforeAnyAction (env : InstallEnv)
    (h : (env.libIsDir = true ∧ env.libWritable = false)
        ∨ (env.scriptsIsDir = true ∧ env.scriptsWritable = false)) :
    installRun env =
      Except.error ("Error: no write permission for "
        ++ (if env.libIsDir && !env.libWritable then env.installLib else env.installScripts)
        ++ "  Perhaps you need to use sudo?") := by
  unfold installRun
  rcases h with ⟨h1, h2⟩ | ⟨h1, h2⟩
  · simp [h1, h2]
  · cases hl : (env.libIsDir && !env.libWritable) <;> simp [hl, h1, h2]

/-- Witness for claim C9 at a concrete environment. -/
theorem installPermissionErrorBeforeAnyAction_witness :
    installRun lockedInstallEnv =
      Except.error ("Error: no write permission for "
        ++ (if lockedInstallEnv.libIsDir && !lockedInstallEnv.libWritable
            then lockedInstallEnv.installLib else lockedInstallEnv.installScripts)
        ++ "  Perhaps you need to use sudo?") :=
  installPermissionErrorBeforeAnyAction lockedInstallEnv (Or.inl ⟨rfl, rfl⟩)

/-- Counterexample to claim C1 as stated: at a concrete environment the
install command succeeds and its trace copies the reference files, yet it
contains no compilation of the C++ extension — the build steps are commented
out in this `setup.py`, so no build precedes the copies. -/
theorem installRunNeverBuilds_counterexample :
    ∃ tr, installRun sampleInstallEnv = Except.ok tr
      ∧ (∀ cmd, Action.buildCompile cmd ∉ tr)
      ∧ Action.copyFile "unicycler/gene_data/start_genes.fasta"
          "/lib/unicycler/gene_data/start_genes.fasta" ∈ tr := by
  refine ⟨installTrace sampleInstallEnv, rfl, ?_, ?_⟩
  · intro cmd
    simp [installTrace, sampleInstallEnv, geneDataDest]
  · simp [installTrace, sampleInstallEnv, geneDataDest]

/-- Claim C1 as amended: running the install command never builds the compiled
C++ extension — every successful run trace is free of build actions (the build
steps are commented out in this source), so the files are copied without any
prior build step. -/
theorem installRunNeverBuilds (env : InstallEnv) (tr : List Action) (cmd : List String)
    (h : installRun env = Except.ok tr) : Action.buildCompile cmd ∉ tr := by
  unfold installRun at h
  split at h
  · cases h
  · split at h
    · cases h
    · rw [Except.ok.injEq] at h
      subst h
      intro hmem
      unfold installTrace at hmem
      rcases List.mem_append.mp hmem with hmem | hmem
      · split at hmem <;> simp_all
      · simp_all

/-- Witness for the amended claim C1 at a concrete environment. -/
theorem installRunNeverBuilds_witness :
    Action.buildCompile ["make"] ∉ installTrace sampleInstallEnv :=
  installRunNeverBuilds sampleInstallEnv _ ["make"] rfl

/-- Claim C7: on the success path the install command creates the gene-data
destination directory exactly when it is absent, copies `start_genes.fasta`
and `lambda_phage.fasta` from `unicycler/gene_data` into the `unicycler/gene_data`
directory under the install-library location, runs the external-executable
check as its final action, and performs no domain work — every action of the
trace is a directory creation, a reference-data copy, a printed message, or
the tool check. -/
theorem installCopiesDataThenChecksTools (env : InstallEnv)
    (h1 : (env.libIsDir && !env.libWritable) = false)
    (h2 : (env.scriptsIsDir && !env.scriptsWritable) = false) :
    ∃ tr, installRun env = Except.ok tr
      ∧ Action.copyFile "unicycler/gene_data/start_genes.fasta"
          (geneDataDest env ++ "/start_genes.fasta") ∈ tr
      ∧ Action.copyFile "unicycler/gene_data/lambda_phage.fasta"
          (geneDataDest env ++ "/lambda_phage.fasta") ∈ tr
      ∧ (Action.makeDirs (geneDataDest env) ∈ tr ↔ env.geneDataDestExists = false)
      ∧ tr.getLast? = some (Action.toolMsg (toolCheck env))
      ∧ (∀ a ∈ tr, (∃ p, a = Action.makeDirs p) ∨ (∃ s d, a = Action.copyFile s d)
          ∨ (∃ m, a = Action.message m) ∨ (∃ m, a = Action.toolMsg m)) := by
  refine ⟨installTrace env, ?_, ?_, ?_, ?_, ?_, ?_⟩
  · unfold installRun
    rw [if_neg (by simp [h1]), if_neg (by simp [h2])]
  · simp [installTrace]
  · simp [installTrace]
  · unfold installTrace
    cases hg : env.geneDataDestExists <;> simp [hg]
  · unfold installTrace
    cases hg : env.geneDataDestExists <;> simp [hg, List.getLast?_append]
  · intro a ha
    unfold installTrace at ha
    rcases List.mem_append.mp ha with ha | ha
    · split at ha
      · simp only [List.mem_singleton] at ha
        exact Or.inl ⟨_, ha⟩
      · simp at ha
    · rcases List.mem_cons.mp ha with ha | ha
      · exact Or.inr (Or.inl ⟨_, _, ha⟩)
      · rcases List.mem_cons.mp ha with ha | ha
        · exact Or.inr (Or.inl ⟨_, _, ha⟩)
        · simp only [List.mem_cons, List.not_mem_nil, or_false] at ha
          rcases ha with ha | ha | ha | ha | ha | ha | ha | ha | ha | ha
            <;> first
              | exact Or.inr (Or.inr (Or.inl ⟨_, ha⟩))
              | exact Or.inr (Or.inr (Or.inr ⟨_, ha⟩))

/-- Claim C10: the clean command first asserts that the current directory is
still the recorded package root (otherwise it stops with the assertion message
and deletes nothing); on the normal path — when no matched directory is nested
inside another, so the deletion loop cannot trip over an already-removed tree —
it deletes exactly the trees rooted at directories named `*.egg-info`, `build`
or `__pycache__` and the files named `setuptools*.zip`, `*.o` or `*.pyc`, and
every other entry (in particular `cpp_functions.so` and the `.py` sources when
they are not under a deleted directory) survives unchanged. -/
theorem cleanDeletesOnlyMatched (recorded current : List String) (fs : FS)
    (hpair : List.Pairwise
      (fun p q => p.isPrefixOf q = false ∧ q.isPrefixOf p = false) (matchedDirs fs)) :
    (current ≠ recorded → cleanRun recorded current fs
        = Except.error ("Must be in package root: " ++ String.intercalate "/" recorded))
    ∧ (current = recorded →
        cleanRun recorded current fs
          = Except.ok (fs.filter (fun e =>
              (e.isDir || !fileNameMatch (baseName e.path))
                && !((matchedDirs fs).any (fun p => p.isPrefixOf e.path)))))
    ∧ (current = recorded → ∀ e ∈ fs,
        ((matchedDirs fs).any (fun p => p.isPrefixOf e.path)) = false →
        (e.isDir = true ∨ fileNameMatch (baseName e.path) = false) →
        ∃ fs2, cleanRun recorded current fs = Except.ok fs2 ∧ e ∈ fs2) := by
  have hall := rmtreeAll_ok (matchedDirs fs) fs (matchedDirs_exists fs) hpair
  have hok : current = recorded →
      cleanRun recorded current fs
        = Except.ok (fs.filter (fun e =>
            (e.isDir || !fileNameMatch (baseName e.path))
              && !((matchedDirs fs).any (fun p => p.isPrefixOf e.path)))) := by
    intro hc
    unfold cleanRun
    rw [if_neg (by simp [hc]), hall]
    show Except.ok _ = _
    rw [List.filter_filter]
  refine ⟨?_, hok, ?_⟩
  · intro hc
    unfold cleanRun
    rw [if_pos hc]
  · intro hc e he hdirs hkeep
    refine ⟨_, hok hc, List.mem_filter.mpr ⟨he, ?_⟩⟩
    rw [hdirs]
    rcases hkeep with h | h <;> simp [h]

/-- Witness for claim C10 at a concrete filesystem: on `sampleFS` the clean
command keeps `unicycler/`, its `.so` and `.py` files and `README.md`, and
deletes the `build` tree, the egg-info directory and the stray `.pyc` file. -/
theorem cleanDeletesOnlyMatched_witness :
    List.Pairwise (fun p q => p.isPrefixOf q = false ∧ q.isPrefixOf p = false)
        (matchedDirs sampleFS)
      ∧ cleanRun ["root"] ["root"] sampleFS
          = Except.ok (sampleFS.filter (fun e =>
              (e.isDir || !fileNameMatch (baseName e.path))
                && !((matchedDirs sampleFS).any (fun p => p.isPrefixOf e.path)))) :=
  ⟨by decide, ((cleanDeletesOnlyMatched ["root"] ["root"] sampleFS (by decide)).2).1 rfl⟩

theorem mem_nodes_mergePath (g : SGraph) (p : List Nat) (x : Nat) :
    x ∈ (mergePath g p).nodes ↔ (x ∈ g.nodes ∧ x ∉ p) ∨ x = g.nextId := by
  unfold mergePath
  simp [List.mem_filter]

theorem noDangling_applyBridge (g : SGraph) (b : Bridge) (h : noDangling g) :
    noDangling (applyBridge g b) := by
  unfold applyBridge
  split
  · intro e he
    unfold mergePath at he
    simp only at he
    rcases List.mem_filterMap.mp he with ⟨e0, he0, hre⟩
    rcases h e0 he0 with ⟨h1, h2⟩
    unfold reroute at hre
    by_cases m1 : e0.1 ∈ b.path <;> by_cases m2 : e0.2 ∈ b.path
    · rw [if_pos (by simp [m1]), if_pos (by simp [m2])] at hre
      simp at hre
    · rw [if_pos (by simp [m1]), if_neg (by simp [m2])] at hre
      obtain rfl := Option.some.inj hre
      exact ⟨(mem_nodes_mergePath g b.path _).mpr (Or.inr rfl),
        (mem_nodes_mergePath g b.path _).mpr (Or.inl ⟨h2, m2⟩)⟩
    · rw [if_neg (by simp [m1]), if_pos (by simp [m2])] at hre
      obtain rfl := Option.some.inj hre
      exact ⟨(mem_nodes_mergePath g b.path _).mpr (Or.inl ⟨h1, m1⟩),
        (mem_nodes_mergePath g b.path _).mpr (Or.inr rfl)⟩
    · rw [if_neg (by simp [m1]), if_neg (by simp [m2])] at hre
      obtain rfl := Option.some.inj hre
      exact ⟨(mem_nodes_mergePath g b.path _).mpr (Or.inl ⟨h1, m1⟩),
        (mem_nodes_mergePath g b.path _).mpr (Or.inl ⟨h2, m2⟩)⟩
  · exact h

/-- Claim C3: over every sequence of simplification steps, the Simplifier
never produces a dangling edge endpoint — starting from a graph whose edges
all join existing nodes, after applying (or discarding as stale) any list of
bridges, both endpoints of every edge still reference nodes of the graph. -/
theorem simplifierNoDangling (g : SGraph) (bs : List Bridge) (h : noDangling g) :
    noDangling (applyBridges g bs) := by
  induction bs generalizing g with
  | nil => exact h
  | cons b bs ih =>
    unfold applyBridges
    rw [List.foldl_cons]
    exact ih (applyBridge g b) (noDangling_applyBridge g b h)

/-- Witness for claim C3 at a concrete graph and bridge list. -/
theorem simplifierNoDangling_witness :
    noDangling (applyBridges sampleGraph [sampleBridge, sampleBridge]) :=
  simplifierNoDangling sampleGraph [sampleBridge, sampleBridge]
    (by unfold noDangling; decide)

theorem bridgeUsable_mergePath_false (g : SGraph) (b : Bridge) (hwf : wfGraph g)
    (hu : bridgeUsable g b = true) :
    bridgeUsable (mergePath g b.path) b = false := by
  have hne : b.path ≠ [] := by
    intro h0
    rw [bridgeUsable, h0] at hu
    simp at hu
  obtain ⟨s, rest, hp⟩ := List.exists_cons_of_ne_nil hne
  have hs : s ∈ b.path := by rw [hp]; exact List.mem_cons_self s rest
  have hsg : s ∈ g.nodes := by
    have h1 : b.path.all (fun x => g.nodes.contains x) = true := by
      unfold bridgeUsable at hu
      simp only [Bool.and_eq_true] at hu
      exact hu.1.2
    have := List.all_eq_true.mp h1 s hs
    simpa using this
  by_contra hcon
  rw [Bool.not_eq_false] at hcon
  have h2 : b.path.all (fun x => (mergePath g b.path).nodes.contains x) = true := by
    unfold bridgeUsable at hcon
    simp only [Bool.and_eq_true] at hcon
    exact hcon.1.2
  have hs3 : s ∈ (mergePath g b.path).nodes := by
    simpa using List.all_eq_true.mp h2 s hs
  rcases (mem_nodes_mergePath g b.path s).mp hs3 with ⟨_, hnot⟩ | hfresh
  · exact hnot hs
  · exact absurd hfresh (Nat.ne_of_lt (hwf s hsg))

/-- Claim C5: applying a bridge is idempotent on the already-merged region —
for a well-formed graph, re-offering the same bridge after it has been applied
finds it no longer usable, so the second offer takes the stale-bridge discard
path and leaves the graph unchanged, never performing a duplicate merge. -/
theorem bridgeApplyIdempotent (g : SGraph) (b : Bridge) (hwf : wfGraph g) :
    applyBridge (applyBridge g b) b = applyBridge g b
      ∧ (bridgeUsable g b = true → bridgeUsable (applyBridge g b) b = false) := by
  have happly : ∀ g2, bridgeUsable g2 b = false → applyBridge g2 b = g2 := by
    intro g2 h0
    unfold applyBridge
    rw [h0]
    simp
  have hstale : bridgeUsable g b = true → bridgeUsable (applyBridge g b) b = false := by
    intro hu
    unfold applyBridge
    rw [if_pos hu]
    exact bridgeUsable_mergePath_false g b hwf hu
  refine ⟨?_, hstale⟩
  by_cases hu : bridgeUsable g b = true
  · exact happly (applyBridge g b) (hstale hu)
  · have hu2 : bridgeUsable g b = false := by
      cases h : bridgeUsable g b
      · rfl
      · exact absurd h hu
    rw [happly g hu2]
    exact happly g hu2

theorem kind_cStep (s : Step) : (cStep s).kind = s.kind := by
  cases s <;> rfl

theorem comp_comp (b : Base) : comp (comp b) = b := by
  cases b <;> rfl

theorem cStep_cStep (s : Step) : cStep (cStep s) = s := by
  cases s <;> simp [cStep, comp_comp]

theorem subScoreB_comp (x y : Base) : subScoreB (comp x) (comp y) = subScoreB x y := by
  cases x <;> cases y <;> rfl

theorem subSum_reverse (t : List Step) : subSum t.reverse = subSum t :=
  ((t.reverse_perm).filterMap _).sum_eq

theorem subSum_map_cStep (t : List Step) : subSum (t.map cStep) = subSum t := by
  unfold subSum
  rw [List.filterMap_map]
  refine congrArg List.sum (List.filterMap_congr ?_)
  intro s _
  cases s <;> simp [cStep, subScoreB_comp]

theorem gapCount_reverse (t : List Step) : gapCount t.reverse = gapCount t :=
  (t.reverse_perm).countP_eq _

theorem gapCount_map (t : List Step) : gapCount (t.map cStep) = gapCount t := by
  unfold gapCount
  rw [List.countP_map]
  congr 1
  funext s
  simp [Function.comp, kind_cStep]

theorem gapBoundary_cStep (s : Step) (o : Option Kind) :
    gapBoundary (cStep s) o = gapBoundary s o := by
  unfold gapBoundary
  rw [kind_cStep]

theorem gapBoundary_split (s : Step) (k : Kind) :
    gapBoundary s none
      = gapBoundary s (some k) + (if s.kind.isGap = true ∧ s.kind = k then 1 else 0) := by
  unfold gapBoundary
  by_cases hg : s.kind.isGap = true <;> by_cases hk : s.kind = k
  · rw [if_pos ⟨hg, by simp⟩, if_neg (by simp [hk]), if_pos ⟨hg, hk⟩]
  · rw [if_pos ⟨hg, by simp⟩, if_pos ⟨hg, by simp [Ne.symm hk]⟩, if_neg (by simp [hk])]
  · rw [if_neg (by simp [hg]), if_neg (by simp [hg]), if_neg (by simp [hg])]
  · rw [if_neg (by simp [hg]), if_neg (by simp [hg]), if_neg (by simp [hg])]

theorem gapBoundary_shift (s : Step) (k2 : Kind) :
    gapBoundary s none
      = gapBoundary s (some k2) + (if k2.isGap = true ∧ k2 = s.kind then 1 else 0) := by
  unfold gapBoundary
  by_cases hg : s.kind.isGap = true <;> by_cases hk : k2 = s.kind
  · rw [if_pos ⟨hg, by simp⟩, if_neg (by simp [hk]), if_pos ⟨hk ▸ hg, hk⟩]
  · rw [if_pos ⟨hg, by simp⟩, if_pos ⟨hg, by simp [hk]⟩, if_neg (by simp [hk])]
  · rw [if_neg (by simp [hg]), if_neg (by simp [hg]),
      if_neg (by rw [hk]; simp [hg])]
  · rw [if_neg (by simp [hg]), if_neg (by simp [hg]), if_neg (by simp [hk])]

theorem runStarts_map (prev : Option Kind) (t : List Step) :
    runStarts prev (t.map cStep) = runStarts prev t := by
  induction t generalizing prev with
  | nil => rfl
  | cons s t ih => simp [runStarts, kind_cStep, gapBoundary_cStep, ih]

theorem runStarts_none_some (t : List Step) (k : Kind) :
    runStarts none t = runStarts (some k) t
      + (match t.head? with
         | some u => if u.kind.isGap = true ∧ u.kind = k then 1 else 0
         | none => 0) := by
  cases t with
  | nil => rfl
  | cons s rest =>
    simp only [runStarts, List.head?]
    rw [gapBoundary_split s k]
    omega

theorem runStarts_none_eq_runEnds (t : List Step) : runStarts none t = runEnds t := by
  induction t with
  | nil => rfl
  | cons s rest ih =>
    have h9 := runStarts_none_some rest s.kind
    simp only [runStarts, runEnds]
    rw [← ih, h9]
    cases rest with
    | nil => simp [runStarts]
    | cons u rest2 =>
      simp only [List.head?, Option.map_some']
      rw [gapBoundary_shift s u.kind]
      omega

theorem runStarts_append_single (xs : List Step) (a : Step) (prev : Option Kind) :
    runStarts prev (xs ++ [a])
      = runStarts prev xs
        + gapBoundary a
            (match xs.getLast? with
             | some s => some s.kind
             | none => prev) := by
  induction xs generalizing prev with
  | nil => simp [runStarts]
  | cons b xs ih =>
    simp only [List.cons_append, runStarts]
    rw [show xs.append [a] = xs ++ [a] from rfl, ih (some b.kind)]
    cases xs with
    | nil => simp [List.getLast?]; omega
    | cons c xs2 =>
      rw [List.getLast?_cons_cons]
      cases hgl : (c :: xs2).getLast? with
      | none => simp at hgl
      | some l => simp only [hgl]; omega

theorem runStarts_reverse_eq_runEnds (t : List Step) :
    runStarts none t.reverse = runEnds t := by
  induction t with
  | nil => rfl
  | cons s rest ih =>
    rw [List.reverse_cons, runStarts_append_single, ih]
    rw [List.getLast?_reverse]
    simp only [runEnds]
    cases hh : rest.head? with
    | none => simp; omega
    | some u => simp; omega

theorem runCount_reverse (t : List Step) : runCount t.reverse = runCount t := by
  unfold runCount
  rw [runStarts_reverse_eq_runEnds, runStarts_none_eq_runEnds]

theorem runLenFrom_map (k : Kind) (t : List Step) :
    runLenFrom k (t.map cStep) = runLenFrom k t := by
  induction t with
  | nil => rfl
  | cons s rest ih => simp [runLenFrom, kind_cStep, ih]

theorem frontRefund_map (t : List Step) : frontRefund (t.map cStep) = frontRefund t := by
  cases t with
  | nil => rfl
  | cons s rest =>
    show (if (cStep s).kind.isGap
          then gapOpenPen + gapExtendPen * ((runLenFrom (cStep s).kind
            (cStep s :: rest.map cStep) : ℕ) : ℤ) else 0)
        = (if s.kind.isGap
          then gapOpenPen + gapExtendPen * ((runLenFrom s.kind (s :: rest) : ℕ) : ℤ) else 0)
    rw [kind_cStep]
    rw [show (cStep s :: rest.map cStep) = (s :: rest).map cStep from rfl]
    rw [runLenFrom_map]

theorem singleGapRun_iff (t : List Step) :
    singleGapRun t = true
      ↔ ∃ k, Kind.isGap k = true ∧ t ≠ [] ∧ ∀ u ∈ t, u.kind = k := by
  cases t with
  | nil => simp [singleGapRun]
  | cons s rest =>
    simp only [singleGapRun, Bool.and_eq_true, List.all_eq_true]
    constructor
    · rintro ⟨hg, hall⟩
      refine ⟨s.kind, hg, by simp, fun u hu => ?_⟩
      have := hall u hu
      simpa using this
    · rintro ⟨k, hk, -, hall⟩
      have hs : s.kind = k := hall s (List.mem_cons_self s rest)
      refine ⟨by rw [hs]; exact hk, fun u hu => ?_⟩
      have := hall u hu
      simp [this, hs]

theorem singleGapRun_reverse (t : List Step) :
    singleGapRun t.reverse = singleGapRun t := by
  rw [Bool.eq_iff_iff, singleGapRun_iff, singleGapRun_iff]
  constructor
  · rintro ⟨k, hk, hne, hall⟩
    exact ⟨k, hk, by simpa using hne, fun u hu => hall u (List.mem_reverse.mpr hu)⟩
  · rintro ⟨k, hk, hne, hall⟩
    exact ⟨k, hk, by simpa using hne, fun u hu => hall u (List.mem_reverse.mp hu)⟩

theorem singleGapRun_map (t : List Step) :
    singleGapRun (t.map cStep) = singleGapRun t := by
  rw [Bool.eq_iff_iff, singleGapRun_iff, singleGapRun_iff]
  constructor
  · rintro ⟨k, hk, hne, hall⟩
    refine ⟨k, hk, by simpa using hne, fun u hu => ?_⟩
    have := hall (cStep u) (List.mem_map.mpr ⟨u, hu, rfl⟩)
    rw [kind_cStep] at this
    exact this
  · rintro ⟨k, hk, hne, hall⟩
    refine ⟨k, hk, by simpa using hne, fun u hu => ?_⟩
    rcases List.mem_map.mp hu with ⟨v, hv, rfl⟩
    rw [kind_cStep]
    exact hall v hv

theorem runLenFrom_all (k : Kind) (t : List Step) (h : ∀ u ∈ t, u.kind = k) :
    runLenFrom k t = t.length := by
  induction t with
  | nil => rfl
  | cons s rest ih =>
    rw [runLenFrom, if_pos (h s (List.mem_cons_self s rest)),
      ih (fun u hu => h u (List.mem_cons_of_mem s hu))]
    simp [Nat.add_comm]

theorem frontRefund_single (t : List Step) (h : singleGapRun t = true) :
    frontRefund t = gapOpenPen + gapExtendPen * (t.length : ℤ) := by
  rcases (singleGapRun_iff t).mp h with ⟨k, hk, hne, hall⟩
  cases t with
  | nil => exact absurd rfl hne
  | cons s rest =>
    have hs : s.kind = k := hall s (List.mem_cons_self s rest)
    show (if s.kind.isGap
        then gapOpenPen + gapExtendPen * ((runLenFrom s.kind (s :: rest) : ℕ) : ℤ) else 0) = _
    rw [if_pos (by rw [hs]; exact hk)]
    rw [runLenFrom_all s.kind (s :: rest) (fun u hu => by rw [hall u hu, hs])]

theorem scoreT_revSteps (t : List Step) : scoreT (revSteps t) = scoreT t := by
  unfold scoreT revSteps
  rw [subSum_reverse, subSum_map_cStep, gapCount_reverse, gapCount_map]
  rw [show runCount ((t.map cStep).reverse) = runCount t from by
    rw [runCount_reverse]; unfold runCount; rw [runStarts_map]]
  rw [List.reverse_reverse]
  rw [singleGapRun_reverse, singleGapRun_map]
  rw [show frontRefund ((t.map cStep).reverse) = frontRefund t.reverse from by
    rw [← List.map_reverse, frontRefund_map]]
  rw [frontRefund_map]
  by_cases hs : singleGapRun t = true
  · rw [if_pos hs, if_pos hs]
    rw [frontRefund_single t hs,
      frontRefund_single t.reverse (by rw [singleGapRun_reverse]; exact hs),
      List.length_reverse]
  · rw [if_neg hs, if_neg hs]
    ring

theorem readOf_reverse (t : List Step) : readOf t.reverse = (readOf t).reverse := by
  unfold readOf
  rw [List.filterMap_reverse]

theorem nodeOf_reverse (t : List Step) : nodeOf t.reverse = (nodeOf t).reverse := by
  unfold nodeOf
  rw [List.filterMap_reverse]

theorem readOf_map_cStep (t : List Step) : readOf (t.map cStep) = (readOf t).map comp := by
  unfold readOf
  rw [List.filterMap_map, List.map_filterMap]
  refine List.filterMap_congr ?_
  intro s _
  cases s <;> rfl

theorem nodeOf_map_cStep (t : List Step) : nodeOf (t.map cStep) = (nodeOf t).map comp := by
  unfold nodeOf
  rw [List.filterMap_map, List.map_filterMap]
  refine List.filterMap_congr ?_
  intro s _
  cases s <;> rfl

theorem readOf_revSteps (t : List Step) : readOf (revSteps t) = revComp (readOf t) := by
  unfold revSteps revComp
  rw [readOf_reverse, readOf_map_cStep]

theorem nodeOf_revSteps (t : List Step) : nodeOf (revSteps t) = revComp (nodeOf t) := by
  unfold revSteps revComp
  rw [nodeOf_reverse, nodeOf_map_cStep]

theorem enumT_mem (t : List Step) :
    ∀ (r n : List Base), t ∈ enumT r n ↔ (readOf t = r ∧ nodeOf t = n) := by
  induction t with
  | nil =>
    intro r n
    cases r <;> cases n <;> simp [enumT, readOf, nodeOf]
  | cons s t ih =>
    intro r n
    cases r with
    | nil =>
      cases n with
      | nil => cases s <;> simp [enumT, readOf, nodeOf]
      | cons y n2 => cases s <;> simp [enumT, readOf, nodeOf, ih] <;> aesop
    | cons x r2 =>
      cases n with
      | nil => cases s <;> simp [enumT, readOf, nodeOf, ih] <;> aesop
      | cons y n2 => cases s <;> simp [enumT, readOf, nodeOf, ih] <;> aesop

theorem revSteps_mem_enumT (t : List Step) (r n : List Base) (h : t ∈ enumT r n) :
    revSteps t ∈ enumT (revComp r) (revComp n) := by
  rw [enumT_mem] at h ⊢
  rcases h with ⟨h1, h2⟩
  rw [readOf_revSteps, nodeOf_revSteps, h1, h2]
  exact ⟨rfl, rfl⟩

theorem le_foldlMax (l : List ℤ) (a : ℤ) : a ≤ l.foldl max a := by
  induction l generalizing a with
  | nil => exact le_refl a
  | cons x l ih =>
    rw [List.foldl_cons]
    exact le_trans (le_max_left a x) (ih (max a x))

theorem mem_le_foldlMax : ∀ (l : List ℤ) (a x : ℤ), x ∈ l → x ≤ l.foldl max a := by
  intro l
  induction l with
  | nil => intro a x h; cases h
  | cons y l ih =>
    intro a x h
    rw [List.foldl_cons]
    rcases List.mem_cons.mp h with rfl | h2
    · exact le_trans (le_max_right a x) (le_foldlMax l (max a x))
    · exact ih (max a y) x h2

theorem foldlMax_le : ∀ (l : List ℤ) (a c : ℤ), a ≤ c → (∀ x ∈ l, x ≤ c) →
    l.foldl max a ≤ c := by
  intro l
  induction l with
  | nil => intro a c ha _; exact ha
  | cons y l ih =>
    intro a c ha h
    rw [List.foldl_cons]
    exact ih (max a y) c (max_le ha (h y (List.mem_cons_self y l)))
      (fun x hx => h x (List.mem_cons_of_mem y hx))

theorem semiGlobalScore_le (r n : List Base) :
    semiGlobalScore r n ≤ semiGlobalScore (revComp r) (revComp n) := by
  unfold semiGlobalScore
  refine foldlMax_le _ 0 _ (le_foldlMax _ 0) ?_
  intro x hx
  rcases List.mem_map.mp hx with ⟨t, ht, rfl⟩
  rw [← scoreT_revSteps t]
  exact mem_le_foldlMax _ 0 _
    (List.mem_map.mpr ⟨revSteps t, revSteps_mem_enumT t r n ht, rfl⟩)

theorem revComp_revComp (s : List Base) : revComp (revComp s) = s := by
  unfold revComp
  rw [List.map_reverse, List.reverse_reverse, List.map_map]
  rw [show comp ∘ comp = id from funext comp_comp, List.map_id]

/-- Claim C6: reverse-complement symmetry of the Aligner's reported score —
for every (read, node) pair, the best semi-global alignment score is unchanged
when both sequences are reverse-complemented (reversing both sequences and
swapping the orientation consistently). -/
theorem alignScoreRevCompSymm (r n : List Base) :
    semiGlobalScore r n = semiGlobalScore (revComp r) (revComp n) := by
  refine le_antisymm (semiGlobalScore_le r n) ?_
  have h := semiGlobalScore_le (revComp r) (revComp n)
  rw [revComp_revComp, revComp_revComp] at h
  exact h

/-- Claim C4: bridge ranking is a strict total order consistent with the
tie-break chain — a higher support count always outranks, whatever the
identity and path length; among equal support counts a higher mean identity
outranks; among equal support and identity a shorter path outranks; and the
order is irreflexive, transitive, and total up to equality of the three
ranking keys. -/
theorem bridgeRankingTotalOrder (b1 b2 b3 : RankedBridge) :
    (b2.support < b1.support → outranks b1 b2)
      ∧ (b1.support = b2.support → b2.meanIdentity < b1.meanIdentity → outranks b1 b2)
      ∧ (b1.support = b2.support → b1.meanIdentity = b2.meanIdentity →
          b1.pathLen < b2.pathLen → outranks b1 b2)
      ∧ ¬outranks b1 b1
      ∧ (outranks b1 b2 → outranks b2 b3 → outranks b1 b3)
      ∧ (outranks b1 b2 ∨ outranks b2 b1
          ∨ (b1.support = b2.support ∧ b1.meanIdentity = b2.meanIdentity
              ∧ b1.pathLen = b2.pathLen)) := by
  refine ⟨fun h => Or.inl h,
    fun h1 h2 => Or.inr ⟨h1, Or.inl h2⟩,
    fun h1 h2 h3 => Or.inr ⟨h1, Or.inr ⟨h2, h3⟩⟩, ?_, ?_, ?_⟩
  · rintro (h | ⟨-, h | ⟨-, h⟩⟩)
    · exact lt_irrefl _ h
    · exact lt_irrefl _ h
    · exact lt_irrefl _ h
  · rintro (h | ⟨e1, h | ⟨ei1, h⟩⟩) (h2 | ⟨e2, h3 | ⟨ei2, h3⟩⟩)
    · exact Or.inl (lt_trans h2 h)
    · exact Or.inl (e2 ▸ h)
    · exact Or.inl (e2 ▸ h)
    · exact Or.inl (e1 ▸ h2)
    · exact Or.inr ⟨e1.trans e2, Or.inl (lt_trans h3 h)⟩
    · exact Or.inr ⟨e1.trans e2, Or.inl (ei2 ▸ h)⟩
    · exact Or.inl (e1 ▸ h2)
    · exact Or.inr ⟨e1.trans e2, Or.inl (ei1 ▸ h3)⟩
    · exact Or.inr ⟨e1.trans e2, Or.inr ⟨ei1.trans ei2, lt_trans h h3⟩⟩
  · rcases lt_trichotomy b1.support b2.support with hs | hs | hs
    · exact Or.inr (Or.inl (Or.inl hs))
    · rcases lt_trichotomy b1.meanIdentity b2.meanIdentity with hi | hi | hi
      · exact Or.inr (Or.inl (Or.inr ⟨hs.symm, Or.inl hi⟩))
      · rcases lt_trichotomy b1.pathLen b2.pathLen with hl | hl | hl
        · exact Or.inl (Or.inr ⟨hs, Or.inr ⟨hi, hl⟩⟩)
        · exact Or.inr (Or.inr ⟨hs, hi, hl⟩)
        · exact Or.inr (Or.inl (Or.inr ⟨hs.symm, Or.inr ⟨hi.symm, hl⟩⟩))
      · exact Or.inl (Or.inr ⟨hs, Or.inl hi⟩)
    · exact Or.inl (Or.inl hs)

/-- Witness for claim C4 at concrete bridges: a support count of 2 outranks a
support count of 1 despite lower identity and longer path; at equal support
the higher identity outranks; at equal support and identity the shorter path
outranks. -/
theorem bridgeRankingTotalOrder_witness :
    outranks ⟨2, (1 : ℚ) / 2, 9⟩ ⟨1, (9 : ℚ) / 10, 1⟩
      ∧ outranks ⟨2, (9 : ℚ) / 10, 9⟩ ⟨2, (1 : ℚ) / 2, 1⟩
      ∧ outranks ⟨2, (1 : ℚ) / 2, 1⟩ ⟨2, (1 : ℚ) / 2, 5⟩ :=
  ⟨(bridgeRankingTotalOrder ⟨2, (1 : ℚ) / 2, 9⟩ ⟨1, (9 : ℚ) / 10, 1⟩ ⟨0, 0, 0⟩).1
      (by norm_num),
   (bridgeRankingTotalOrder ⟨2, (9 : ℚ) / 10, 9⟩ ⟨2, (1 : ℚ) / 2, 1⟩ ⟨0, 0, 0⟩).2.1
      rfl (by norm_num),
   (bridgeRankingTotalOrder ⟨2, (1 : ℚ) / 2, 1⟩ ⟨2, (1 : ℚ) / 2, 5⟩ ⟨0, 0, 0⟩).2.2.1
      rfl rfl (by norm_num)⟩

/-- Witness for claim C5 at a concrete graph and bridge. -/
theorem bridgeApplyIdempotent_witness :
    applyBridge (applyBridge sampleGraph sampleBridge) sampleBridge
        = applyBridge sampleGraph sampleBridge
      ∧ (bridgeUsable sampleGraph sampleBridge = true
          → bridgeUsable (applyBridge sampleGraph sampleBridge) sampleBridge = false) :=
  bridgeApplyIdempotent sampleGraph sampleBridge (by unfold wfGraph; decide)

/-- Witness for claim C7 at a concrete environment. -/
theorem installCopiesDataThenChecksTools_witness :
    ∃ tr, installRun sampleInstallEnv = Except.ok tr
      ∧ Action.copyFile "unicycler/gene_data/start_genes.fasta"
          (geneDataDest sampleInstallEnv ++ "/start_genes.fasta") ∈ tr
      ∧ Action.copyFile "unicycler/gene_data/lambda_phage.fasta"
          (geneDataDest sampleInstallEnv ++ "/lambda_phage.fasta") ∈ tr
      ∧ (Action.makeDirs (geneDataDest sampleInstallEnv) ∈ tr
          ↔ sampleInstallEnv.geneDataDestExists = false)
      ∧ tr.getLast? = some (Action.toolMsg (toolCheck sampleInstallEnv))
      ∧ (∀ a ∈ tr, (∃ p, a = Action.makeDirs p) ∨ (∃ s d, a = Action.copyFile s d)
          ∨ (∃ m, a = Action.message m) ∨ (∃ m, a = Action.toolMsg m)) :=
  installCopiesDataThenChecksTools sampleInstallEnv rfl rfl

end Unicycler
